import Mathlib

/-!
Verification of `tools/generate_blue_noise.py` from the DesktopLUT repository.

Python strings are modelled as `List Char`.  The functions below are shallow
embeddings of the Python functions of the same names:
  * `format_cpp_array`  — formats a pixel list as a C++ array literal;
  * `update_main_cpp`   — replaces the existing array region in a file;
  * `decode_png`        — decodes (and if needed resizes) an image;
  * `mainRun`           — the `main` pipeline after the decode stage.
-/

namespace BlueNoise

/-- Python string → model: a `String`'s character list. -/
def pyStr (s : String) : List Char := s.data

/-- The character for a single decimal digit `d < 10` (Python `str(d)`). -/
def digitChar (d : Nat) : Char := Char.ofNat (48 + d)

/-- Decimal digit list of a natural number, with explicit fuel so that the
definition is structural and computes by `decide`/`rfl`.  Fuel `n + 1`
always suffices. -/
def natDigitsAux : Nat → Nat → List Char
  | 0, _ => []
  | fuel + 1, n =>
    if n < 10 then [digitChar n]
    else natDigitsAux fuel (n / 10) ++ [digitChar (n % 10)]

/-- Decimal representation of a natural number (Python str of the value). -/
def natDigits (n : Nat) : List Char := natDigitsAux (n + 1) n

/-- Python formatting with spec 3d: the decimal representation
right-justified to a minimum width of 3 characters, space-padded left. -/
def fmt3 (v : Nat) : List Char :=
  let s := natDigits v
  List.replicate (3 - s.length) ' ' ++ s

/-- Python `sep.join(parts)`. -/
def joinSep (sep : List Char) : List (List Char) → List Char
  | [] => []
  | [x] => x
  | x :: y :: xs => x ++ sep ++ joinSep sep (y :: xs)

/-- The three fixed header comment lines of `format_cpp_array`. -/
def headerLine1 : List Char :=
  pyStr "// 64x64 blue noise texture data (single channel, 8-bit)"

def headerLine2 : List Char :=
  pyStr "// Source: momentsingraphics.de (Christoph Peters) - CC0 Public Domain"

def headerLine3 : List Char :=
  pyStr "// Downloaded from free-blue-noise-textures repository"

/-- The declaration line `static const unsigned char {name}[64 * 64] = {`. -/
def declLine (name : List Char) : List Char :=
  pyStr "static const unsigned char " ++ name ++ pyStr "[64 * 64] = \x7b"

/-- Default array identifier of the formatter, g_blueNoiseData. -/
def defaultName : List Char := pyStr "g_blueNoiseData"

/-- One data line of the array body: four leading spaces, the chunk's values
joined by commas, and a trailing comma unless this is the final chunk
(`row == 63 and chunk_start == 48`). -/
def dataLine (row chunkStart : Nat) (chunk : List Nat) : List Char :=
  let formatted := joinSep (pyStr ",") (chunk.map fmt3)
  if row = 63 ∧ chunkStart = 48 then pyStr "    " ++ formatted
  else pyStr "    " ++ formatted ++ pyStr ","

/-- The 256 data lines: for each `row in range(64)`,
`row_values = pixels[row*64 : (row+1)*64]`, and for each
`chunk_start in range(0, 64, 16)`, `chunk = row_values[chunk_start : chunk_start+16]`. -/
def dataLines (pixels : List Nat) : List (List Char) :=
  (List.range 64).flatMap (fun row =>
    let row_values := (pixels.drop (row * 64)).take 64
    ((List.range 4).map (fun k => 16 * k)).map (fun chunk_start =>
      dataLine row chunk_start ((row_values.drop chunk_start).take 16)))

/-- Embedding of `format_cpp_array`: all output lines joined by newlines. -/
def format_cpp_array (pixels : List Nat) (name : List Char := defaultName) :
    List Char :=
  joinSep ['\n']
    ([headerLine1, headerLine2, headerLine3, declLine name]
      ++ dataLines pixels ++ [pyStr "\x7d;"])

/-- The four header/declaration lines of the formatter output with the
default identifier, joined by newlines: the concrete prefix of every
`format_cpp_array pixels` output. -/
def headerJoined : List Char :=
  joinSep ['\n'] [headerLine1, headerLine2, headerLine3, declLine defaultName]

/-- The 256 data lines joined by newlines: the body of the array literal. -/
def bodyText (pixels : List Nat) : List Char :=
  joinSep ['\n'] (dataLines pixels)

/-! ## The `update_main_cpp` regex matcher

The Python pattern is
`// 64x64 blue noise texture data.*?static const unsigned char g_blueNoiseData\[64 \* 64\] = \{[^}]+\};`
compiled with `re.DOTALL` and applied with `re.search`.  Its semantics:
`re.search` tries each start position left to right; the pattern itself is
the literal `lit1`, a lazy gap `.*?` (shortest first, `.` matches `\n` under
DOTALL), the literal `lit2`, a nonempty run of non-`}` characters (`[^}]+`,
which having no viable shorter extent is exactly the maximal such run
followed by the closing brace and semicolon), and the literal `lit3`. -/

def lit1 : List Char := pyStr "// 64x64 blue noise texture data"

def lit2 : List Char :=
  pyStr "static const unsigned char g_blueNoiseData[64 * 64] = \x7b"

def lit3 : List Char := pyStr "\x7d;"

/-- Match the `[^}]+\};` tail together with `lit2` at exact position `q`;
returns the end position of the whole match. -/
def tailMatch (content : List Char) (q : Nat) : Option Nat :=
  if lit2.isPrefixOf (content.drop q) then
    let r := q + lit2.length
    let run := (content.drop r).takeWhile (fun c => c ≠ '}')
    if run.length ≠ 0 ∧ lit3.isPrefixOf (content.drop (r + run.length)) then
      some (r + run.length + lit3.length)
    else none
  else none

/-- Match the whole pattern anchored at position `s`: the literal `lit1`,
then the lazy gap (the q-loop tries shorter gaps first), then the tail. -/
def tryMatchFrom (content : List Char) (s : Nat) : Option Nat :=
  if lit1.isPrefixOf (content.drop s) then
    (List.range (content.length + 1)).findSome? (fun q =>
      if s + lit1.length ≤ q then tailMatch content q else none)
  else none

/-- Embedding of the `re.search` call: the leftmost start position
admitting a match, with the end position of the match found there. -/
def reSearch (content : List Char) : Option (Nat × Nat) :=
  (List.range (content.length + 1)).findSome? (fun s =>
    (tryMatchFrom content s).map (fun e => (s, e)))

/-- Embedding of `update_main_cpp`.  The file-system effect is
made explicit: `none` models `sys.exit(1)` with the file never written;
`some c` models the file being rewritten with content `c`
(`content[:match.start()] + new_array_code + content[match.end():]`). -/
def update_main_cpp (content new_array_code : List Char) :
    Option (List Char) :=
  match reSearch content with
  | none => none
  | some (s, e) =>
    some (content.take s ++ new_array_code ++ content.drop e)

/-! ## The `main` pipeline after the decode stage -/

/-- Observable outcome of one run of `main` after decoding: the exit status,
what was printed to standard output, and what (if anything) was written to
the target file. -/
structure MainResult where
  exitCode : Nat
  stdoutText : Option (List Char)
  fileWrite : Option (List Char)
  deriving DecidableEq

/-- The part of `main` after the pixel-count check: format the array, then
either patch the target file (update mode) or print to standard output. -/
def mainAfterCheck (pixels : List Nat) (target : Option (List Char)) :
    MainResult :=
  let cpp_code := format_cpp_array pixels
  match target with
  | some content =>
    match update_main_cpp content cpp_code with
    | none => ⟨1, none, none⟩
    | some newContent => ⟨0, none, some newContent⟩
  | none => ⟨0, some cpp_code, none⟩

/-- The `main` pipeline from the point where `pixels` is available: exit
with status 1
producing no output if `len(pixels) != 64 * 64`, otherwise continue.
`target` is `some content` when `--update` was given and the target file
holds `content`. -/
def mainRun (pixels : List Nat) (target : Option (List Char)) : MainResult :=
  if pixels.length ≠ 64 * 64 then ⟨1, none, none⟩
  else mainAfterCheck pixels target

/-! ## `decode_png`

A PIL image after `img.convert('L')` is modelled as a grayscale raster:
width, height and the row-major intensity data, whose length is
`width * height` (the PIL contract for `list(img.getdata())`). -/

/-- A decoded single-channel PIL image (the state after `convert('L')`,
which preserves the size). -/
structure PILImage where
  width : Nat
  height : Nat
  data : List Nat
  size_eq : data.length = width * height

/-- The PIL resize contract with nearest resampling:
nearest-neighbor sampling producing a `w × h` raster. -/
def resizeNearest (img : PILImage) (w h : Nat) : PILImage where
  width := w
  height := h
  data := (List.range (w * h)).map (fun i =>
    img.data.getD ((i / w * img.height / h) * img.width
      + (i % w * img.width / w)) 0)
  size_eq := by simp

/-- Embedding of `decode_png` after the PIL decode succeeded: resize when
the size is not
`(64, 64)`, then `pixels = list(img.getdata())`. -/
def decode_png (img : PILImage) : List Nat :=
  let img' := if (img.width, img.height) ≠ (64, 64) then
      resizeNearest img 64 64
    else img
  img'.data

/-! ## A trivial parser for the formatter's output

Used to state the round-trip property: split the output into lines, keep the
data lines (those starting with a space), split each on commas, discard
padding spaces and empty fields, and read each field as a decimal number. -/

/-- Split a character list at every occurrence of `c` (Python
`s.split(c)`-style; always returns at least one piece). -/
def splitOnChar (c : Char) : List Char → List (List Char)
  | [] => [[]]
  | x :: xs =>
    match splitOnChar c xs with
    | [] => [[]]
    | t :: ts => if x = c then [] :: t :: ts else (x :: t) :: ts

/-- Read a decimal digit string as a natural number. -/
def digitsToNat (s : List Char) : Nat :=
  s.foldl (fun a c => 10 * a + (c.toNat - 48)) 0

/-- A data line of the formatter's output starts with a space. -/
def isDataLine : List Char → Bool
  | ' ' :: _ => true
  | _ => false

/-- Parse the numeric fields of one data line, in order. -/
def parseLine (l : List Char) : List Nat :=
  (((splitOnChar ',' l).map (fun t => t.filter (fun c => c ≠ ' '))).filter
    (fun t => !t.isEmpty)).map digitsToNat

/-- Parse all pixel values out of the formatter's output, in reading order. -/
def parsePixels (s : List Char) : List Nat :=
  ((splitOnChar '\n' s).filter (fun l => isDataLine l)).flatMap parseLine

/-! ## Lemmas about decimal digits and `fmt3` -/

theorem natDigitsAux_congr : ∀ (fuel fuel' n : Nat), n < fuel → n < fuel' →
    natDigitsAux fuel n = natDigitsAux fuel' n := by
  intro fuel
  induction fuel with
  | zero => intro fuel' n h _; omega
  | succ f ih =>
    intro fuel' n h h'
    cases fuel' with
    | zero => omega
    | succ f' =>
      simp only [natDigitsAux]
      by_cases h10 : n < 10
      · simp [h10]
      · have hdiv : n / 10 < n := Nat.div_lt_self (by omega) (by omega)
        simp only [if_neg h10]
        rw [ih f' (n / 10) (by omega) (by omega)]

theorem natDigits_def (n : Nat) :
    natDigits n = if n < 10 then [digitChar n]
      else natDigits (n / 10) ++ [digitChar (n % 10)] := by
  show natDigitsAux (n + 1) n = _
  rw [natDigitsAux]
  by_cases h : n < 10
  · simp [h]
  · have hdiv : n / 10 < n := Nat.div_lt_self (by omega) (by omega)
    simp only [if_neg h]
    rw [natDigitsAux_congr n (n / 10 + 1) (n / 10) hdiv (Nat.lt_succ_self _)]
    rfl

theorem natDigits_ne_nil (n : Nat) : natDigits n ≠ [] := by
  rw [natDigits_def]
  by_cases h : n < 10 <;> simp [h]

theorem mem_natDigits (n : Nat) :
    ∀ c ∈ natDigits n, ∃ d, d < 10 ∧ c = digitChar d := by
  induction n using Nat.strong_induction_on with
  | _ n ih =>
    rw [natDigits_def]
    by_cases h : n < 10
    · simp only [if_pos h, List.mem_singleton]
      intro c hc
      exact ⟨n, h, hc⟩
    · simp only [if_neg h, List.mem_append, List.mem_singleton]
      intro c hc
      rcases hc with hc | hc
      · exact ih (n / 10) (Nat.div_lt_self (by omega) (by omega)) c hc
      · exact ⟨n % 10, Nat.mod_lt _ (by omega), hc⟩

/-- Bundled concrete facts about the ten digit characters. -/
theorem digitChar_facts : ∀ d < 10, (digitChar d).toNat = 48 + d ∧
    digitChar d ≠ ' ' ∧ digitChar d ≠ ',' ∧ digitChar d ≠ '\n' ∧
    digitChar d ≠ '}' ∧ digitChar d ∈ pyStr " ,0123456789" := by decide

theorem digitsToNat_append (a b : List Char) :
    digitsToNat (a ++ b) =
      b.foldl (fun acc c => 10 * acc + (c.toNat - 48)) (digitsToNat a) := by
  simp [digitsToNat, List.foldl_append]

theorem digitsToNat_natDigits (n : Nat) : digitsToNat (natDigits n) = n := by
  induction n using Nat.strong_induction_on with
  | _ n ih =>
    rw [natDigits_def]
    by_cases h : n < 10
    · simp only [if_pos h, digitsToNat, List.foldl_cons, List.foldl_nil]
      rw [(digitChar_facts n h).1]
      omega
    · simp only [if_neg h]
      rw [digitsToNat_append]
      simp only [List.foldl_cons, List.foldl_nil]
      rw [ih (n / 10) (Nat.div_lt_self (by omega) (by omega))]
      rw [(digitChar_facts (n % 10) (Nat.mod_lt _ (by omega))).1]
      omega

theorem fmt3_filter_space (v : Nat) :
    (fmt3 v).filter (fun c => c ≠ ' ') = natDigits v := by
  unfold fmt3
  rw [List.filter_append]
  have h1 : (List.replicate (3 - (natDigits v).length) ' ').filter
      (fun c => decide (c ≠ ' ')) = [] := by
    rw [List.filter_eq_nil_iff]
    intro c hc
    rw [List.eq_of_mem_replicate hc]
    simp
  have h2 : (natDigits v).filter (fun c => decide (c ≠ ' ')) = natDigits v := by
    rw [List.filter_eq_self]
    intro c hc
    obtain ⟨d, hd, rfl⟩ := mem_natDigits v c hc
    simpa using (digitChar_facts d hd).2.1
  simp only [h1, h2, List.nil_append]

theorem fmt3_ne_nil (v : Nat) : fmt3 v ≠ [] := by
  unfold fmt3
  intro h
  rcases List.append_eq_nil.mp h with ⟨-, h2⟩
  exact natDigits_ne_nil v h2

/-- Every character of `fmt3 v` is a space, a comma, or a digit
(in fact never a comma, but membership in this set is what later
lemmas consume). -/
theorem fmt3_chars (v : Nat) : ∀ c ∈ fmt3 v, c ∈ pyStr " ,0123456789" := by
  unfold fmt3
  intro c hc
  rcases List.mem_append.mp hc with hc | hc
  · rw [List.eq_of_mem_replicate hc]; decide
  · obtain ⟨d, hd, rfl⟩ := mem_natDigits v c hc
    exact (digitChar_facts d hd).2.2.2.2.2

theorem fmt3_no_comma (v : Nat) : ',' ∉ fmt3 v := by
  unfold fmt3
  intro h
  rcases List.mem_append.mp h with h | h
  · exact absurd (List.eq_of_mem_replicate h) (by decide)
  · obtain ⟨d, hd, hd'⟩ := mem_natDigits v ',' h
    exact (digitChar_facts d hd).2.2.1 hd'.symm

/-! ## Lemmas about `joinSep` and `splitOnChar` -/

theorem joinSep_cons (sep x y : List Char) (ys : List (List Char)) :
    joinSep sep (x :: y :: ys) = x ++ sep ++ joinSep sep (y :: ys) := rfl

theorem joinSep_append (sep : List Char) (L1 L2 : List (List Char))
    (h1 : L1 ≠ []) (h2 : L2 ≠ []) :
    joinSep sep (L1 ++ L2) = joinSep sep L1 ++ sep ++ joinSep sep L2 := by
  induction L1 with
  | nil => exact absurd rfl h1
  | cons x xs ih =>
    cases xs with
    | nil =>
      cases L2 with
      | nil => exact absurd rfl h2
      | cons y ys => rfl
    | cons x' xs' =>
      calc joinSep sep ((x :: x' :: xs') ++ L2)
          = x ++ sep ++ joinSep sep ((x' :: xs') ++ L2) := rfl
        _ = x ++ sep ++ (joinSep sep (x' :: xs') ++ sep ++ joinSep sep L2) := by
            rw [ih (List.cons_ne_nil _ _)]
        _ = joinSep sep (x :: x' :: xs') ++ sep ++ joinSep sep L2 := by
            rw [joinSep_cons]; simp [List.append_assoc]

theorem splitOnChar_ne_nil (c : Char) (s : List Char) : splitOnChar c s ≠ [] := by
  cases s with
  | nil => simp [splitOnChar]
  | cons x xs =>
    rw [splitOnChar]
    rcases h : splitOnChar c xs with _ | ⟨t, ts⟩
    · simp
    · by_cases hx : x = c <;> simp [hx]

theorem splitOnChar_not_mem (c : Char) (l : List Char) (h : c ∉ l) :
    splitOnChar c l = [l] := by
  induction l with
  | nil => rfl
  | cons x xs ih =>
    have hx : x ≠ c := fun e => h (e ▸ List.mem_cons_self x xs)
    have hxs : c ∉ xs := fun m => h (List.mem_cons_of_mem _ m)
    rw [splitOnChar, ih hxs]
    simp [hx]

theorem splitOnChar_append_cons (c : Char) (l rest : List Char) (h : c ∉ l) :
    splitOnChar c (l ++ c :: rest) = l :: splitOnChar c rest := by
  induction l with
  | nil =>
    rw [List.nil_append, splitOnChar]
    rcases hr : splitOnChar c rest with _ | ⟨t, ts⟩
    · exact absurd hr (splitOnChar_ne_nil c rest)
    · simp [hr]
  | cons x xs ih =>
    have hx : x ≠ c := fun e => h (e ▸ List.mem_cons_self x xs)
    have hxs : c ∉ xs := fun m => h (List.mem_cons_of_mem _ m)
    rw [List.cons_append, splitOnChar, ih hxs]
    simp [hx]

theorem splitOnChar_joinSep (c : Char) (L : List (List Char)) (hL : L ≠ [])
    (h : ∀ l ∈ L, c ∉ l) : splitOnChar c (joinSep [c] L) = L := by
  induction L with
  | nil => exact absurd rfl hL
  | cons x xs ih =>
    cases xs with
    | nil => exact splitOnChar_not_mem c x (h x (List.mem_cons_self _ _))
    | cons y ys =>
      have hj : joinSep [c] (x :: y :: ys) = x ++ c :: joinSep [c] (y :: ys) := by
        rw [joinSep_cons]; simp
      rw [hj, splitOnChar_append_cons c _ _ (h x (List.mem_cons_self _ _)),
        ih (List.cons_ne_nil _ _) (fun l hl => h l (List.mem_cons_of_mem _ hl))]

theorem joinSep_append_sep (c : Char) (L : List (List Char)) (hL : L ≠ []) :
    joinSep [c] L ++ [c] = joinSep [c] (L ++ [[]]) := by
  rw [joinSep_append [c] L [[]] hL (by simp)]
  simp [joinSep]

theorem pad_joinSep (sep pad x : List Char) (xs : List (List Char)) :
    pad ++ joinSep sep (x :: xs) = joinSep sep ((pad ++ x) :: xs) := by
  cases xs with
  | nil => rfl
  | cons y ys => simp [joinSep_cons, List.append_assoc]

theorem mem_joinSep (sep : List Char) (L : List (List Char)) :
    ∀ x ∈ joinSep sep L, x ∈ sep ∨ ∃ l ∈ L, x ∈ l := by
  induction L with
  | nil => simp [joinSep]
  | cons a as ih =>
    cases as with
    | nil =>
      intro x hx
      exact Or.inr ⟨a, by simp, hx⟩
    | cons b bs =>
      intro x hx
      rw [joinSep_cons] at hx
      rcases List.mem_append.mp hx with hx | hx
      · rcases List.mem_append.mp hx with hx | hx
        · exact Or.inr ⟨a, by simp, hx⟩
        · exact Or.inl hx
      · rcases ih x hx with h' | ⟨l, hl, hxl⟩
        · exact Or.inl h'
        · exact Or.inr ⟨l, List.mem_cons_of_mem _ hl, hxl⟩

theorem joinSep_getLast?_concat (sep : List Char) (L : List (List Char))
    (x : List Char) (hx : x ≠ []) :
    (joinSep sep (L ++ [x])).getLast? = x.getLast? := by
  induction L with
  | nil => rfl
  | cons a as ih =>
    rcases h : as ++ [x] with _ | ⟨y, ys⟩
    · exact absurd (List.append_eq_nil.mp h).2 (by simp)
    · have hcons : (a :: as) ++ [x] = a :: y :: ys := by rw [List.cons_append, h]
      rw [hcons, joinSep_cons, List.getLast?_append, List.getLast?_append, ← h, ih]
      have : x.getLast? ≠ none := fun e => hx (List.getLast?_eq_none_iff.mp e)
      rcases he : x.getLast? with _ | c
      · exact absurd he this
      · rfl

/-! ## Chunking lemmas -/

/-- Concatenating the `n` consecutive slices of size `k` of a list of length
`n * k` gives back the list. -/
theorem concat_chunks {α : Type} :
    ∀ (n : Nat) (k : Nat) (l : List α), l.length = n * k →
    (List.range n).flatMap (fun i => (l.drop (i * k)).take k) = l := by
  intro n
  induction n with
  | zero =>
    intro k l h
    simp only [Nat.zero_mul] at h
    rw [List.eq_nil_of_length_eq_zero h]
    simp
  | succ n ih =>
    intro k l h
    have hlen : (l.drop k).length = n * k := by
      rw [List.length_drop, h, Nat.succ_mul]
      omega
    rw [List.range_succ_eq_map, List.flatMap_cons, List.flatMap_map]
    have hfun : ((List.range n).flatMap fun i =>
          (l.drop (Nat.succ i * k)).take k)
        = (List.range n).flatMap fun i => ((l.drop k).drop (i * k)).take k := by
      apply congrArg
      funext i
      rw [List.drop_drop, Nat.succ_mul, Nat.add_comm (i * k) k]
    rw [hfun, ih k (l.drop k) hlen]
    simp

/-- Reindexing a `flatMap` producing four elements per index as a single
`map` over four times the range. -/
theorem flatMap_four {α : Type} (g : Nat → Nat → α) : ∀ (n : Nat),
    (List.range n).flatMap (fun r => [g r 0, g r 1, g r 2, g r 3])
      = (List.range (4 * n)).map (fun i => g (i / 4) (i % 4)) := by
  intro n
  induction n with
  | zero => simp
  | succ n ih =>
    rw [List.range_succ, List.flatMap_append, ih]
    have h4 : 4 * (n + 1) = 4 * n + 1 + 1 + 1 + 1 := by omega
    rw [h4, List.range_succ, List.range_succ, List.range_succ, List.range_succ]
    simp only [List.map_append, List.flatMap_cons, List.flatMap_nil,
      List.map_cons, List.map_nil, List.append_assoc, List.append_nil,
      List.cons_append, List.nil_append, List.singleton_append]
    have e0 : (4 * n) / 4 = n ∧ (4 * n) % 4 = 0 := by omega
    have e1 : (4 * n + 1) / 4 = n ∧ (4 * n + 1) % 4 = 1 := by omega
    have e2 : (4 * n + 1 + 1) / 4 = n ∧ (4 * n + 1 + 1) % 4 = 2 := by omega
    have e3 : (4 * n + 1 + 1 + 1) / 4 = n ∧ (4 * n + 1 + 1 + 1) % 4 = 3 := by
      omega
    rw [e0.1, e0.2, e1.1, e1.2, e2.1, e2.2, e3.1, e3.2]

/-- Normalizing the double slice of `dataLines`:
`pixels[row*64:(row+1)*64][cs:cs+16] = pixels[row*64+cs : row*64+cs+16]`
for `cs + 16 ≤ 64`. -/
theorem slice_norm {α : Type} (l : List α) (m cs : Nat) (h : cs + 16 ≤ 64) :
    (((l.drop m).take 64).drop cs).take 16 = (l.drop (m + cs)).take 16 := by
  rw [List.drop_take, List.take_take, List.drop_drop]
  congr 1
  omega

/-- The `dataLines` list as a single map over the 256 line indices. -/
theorem dataLines_eq (pixels : List Nat) :
    dataLines pixels = (List.range 256).map (fun i =>
      dataLine (i / 4) (16 * (i % 4))
        ((pixels.drop ((i / 4) * 64 + 16 * (i % 4))).take 16)) := by
  unfold dataLines
  have h4 : ((List.range 4).map (fun k => 16 * k)) = [0, 16, 32, 48] := rfl
  have hrow : (fun row => ((List.range 4).map (fun k => 16 * k)).map
        (fun chunk_start => dataLine row chunk_start
          ((((pixels.drop (row * 64)).take 64).drop chunk_start).take 16)))
      = (fun row => [dataLine row (16 * 0)
            ((pixels.drop (row * 64 + 16 * 0)).take 16),
          dataLine row (16 * 1) ((pixels.drop (row * 64 + 16 * 1)).take 16),
          dataLine row (16 * 2) ((pixels.drop (row * 64 + 16 * 2)).take 16),
          dataLine row (16 * 3) ((pixels.drop (row * 64 + 16 * 3)).take 16)]) := by
    funext row
    rw [h4]
    simp only [List.map_cons, List.map_nil]
    rw [slice_norm pixels (row * 64) 0 (by omega),
      slice_norm pixels (row * 64) 16 (by omega),
      slice_norm pixels (row * 64) 32 (by omega),
      slice_norm pixels (row * 64) 48 (by omega)]
  rw [hrow, flatMap_four (fun r j => dataLine r (16 * j)
    ((pixels.drop (r * 64 + 16 * j)).take 16)) 64]

/-! ## Structure of the formatter output -/

theorem dataLine_chars (row cs : Nat) (chunk : List Nat) :
    ∀ c ∈ dataLine row cs chunk, c ∈ pyStr " ,0123456789" := by
  intro c hc
  have hpad : ∀ y ∈ pyStr "    ", y ∈ pyStr " ,0123456789" := by decide
  have hsep : ∀ y ∈ pyStr ",", y ∈ pyStr " ,0123456789" := by decide
  have main : ∀ x ∈ pyStr "    " ++ joinSep (pyStr ",") (chunk.map fmt3),
      x ∈ pyStr " ,0123456789" := by
    intro x hx
    rcases List.mem_append.mp hx with hx | hx
    · exact hpad x hx
    · rcases mem_joinSep _ _ x hx with hx | ⟨l, hl, hxl⟩
      · exact hsep x hx
      · obtain ⟨v, _, rfl⟩ := List.mem_map.mp hl
        exact fmt3_chars v x hxl
  simp only [dataLine] at hc
  by_cases h : row = 63 ∧ cs = 48
  · rw [if_pos h] at hc
    exact main c hc
  · rw [if_neg h] at hc
    rcases List.mem_append.mp hc with hc | hc
    · exact main c hc
    · exact hsep c hc

theorem dataLines_chars (pixels : List Nat) (l : List Char)
    (hl : l ∈ dataLines pixels) : ∀ c ∈ l, c ∈ pyStr " ,0123456789" := by
  rw [dataLines_eq] at hl
  obtain ⟨i, _, rfl⟩ := List.mem_map.mp hl
  exact dataLine_chars _ _ _

theorem newline_not_mem_dataLine (pixels : List Nat) (l : List Char)
    (hl : l ∈ dataLines pixels) : '\n' ∉ l := by
  intro hc
  exact absurd (dataLines_chars pixels l hl '\n' hc) (by decide)

theorem newline_not_mem_declLine (name : List Char) (hname : '\n' ∉ name) :
    '\n' ∉ declLine name := by
  intro hc
  unfold declLine at hc
  rcases List.mem_append.mp hc with hc | hc
  · rcases List.mem_append.mp hc with hc | hc
    · exact absurd hc (by decide)
    · exact hname hc
  · exact absurd hc (by decide)

/-- Splitting the output of `format_cpp_array` at newlines recovers the list
of lines it was built from. -/
theorem splitLines_format (pixels : List Nat) (name : List Char)
    (hname : '\n' ∉ name) :
    splitOnChar '\n' (format_cpp_array pixels name)
      = [headerLine1, headerLine2, headerLine3, declLine name]
        ++ dataLines pixels ++ [pyStr "\x7d;"] := by
  unfold format_cpp_array
  apply splitOnChar_joinSep
  · simp
  · intro l hl
    rcases List.mem_append.mp hl with hl | hl
    · rcases List.mem_append.mp hl with hl | hl
      · simp only [List.mem_cons, List.not_mem_nil, or_false] at hl
        rcases hl with rfl | rfl | rfl | rfl
        · decide
        · decide
        · decide
        · exact newline_not_mem_declLine name hname
      · exact newline_not_mem_dataLine pixels l hl
    · simp only [List.mem_singleton] at hl
      rw [hl]; decide

theorem dataLines_length (pixels : List Nat) :
    (dataLines pixels).length = 256 := by
  rw [dataLines_eq, List.length_map, List.length_range]

/-! ## Parsing one data line recovers its chunk -/

theorem parseLine_joinSep (v0 : Nat) (vs : List Nat) (ext : List (List Char))
    (hext : ext = [] ∨ ext = [[]]) :
    parseLine (joinSep [',']
      ((pyStr "    " ++ fmt3 v0) :: (vs.map fmt3 ++ ext))) = v0 :: vs := by
  unfold parseLine
  rw [splitOnChar_joinSep]
  · rw [List.map_cons, List.map_append, List.map_map]
    have h0 : (pyStr "    " ++ fmt3 v0).filter (fun c => decide (c ≠ ' '))
        = natDigits v0 := by
      rw [List.filter_append]
      have hpad : (pyStr "    ").filter (fun c => decide (c ≠ ' ')) = [] := by
        decide
      rw [hpad, List.nil_append, fmt3_filter_space]
    have hmap : vs.map ((fun t => t.filter (fun c => decide (c ≠ ' '))) ∘ fmt3)
        = vs.map natDigits := by
      apply List.map_congr_left
      intro v _
      exact fmt3_filter_space v
    have hextmap : ext.map (fun t => t.filter (fun c => decide (c ≠ ' ')))
        = ext := by
      rcases hext with rfl | rfl <;> rfl
    rw [h0, hmap, hextmap]
    rw [List.filter_cons_of_pos (by
      simp only [Bool.not_eq_true']
      rw [List.isEmpty_eq_false]
      exact natDigits_ne_nil v0)]
    rw [List.filter_append]
    have hkeep : (vs.map natDigits).filter (fun t => !t.isEmpty)
        = vs.map natDigits := by
      rw [List.filter_eq_self]
      intro a ha
      obtain ⟨v, _, rfl⟩ := List.mem_map.mp ha
      simp only [Bool.not_eq_true']
      rw [List.isEmpty_eq_false]
      exact natDigits_ne_nil v
    have hdrop : ext.filter (fun t => !t.isEmpty) = [] := by
      rcases hext with rfl | rfl <;> rfl
    rw [hkeep, hdrop, List.append_nil, List.map_cons, List.map_map]
    rw [digitsToNat_natDigits]
    congr 1
    have hpt : ∀ v ∈ vs, (digitsToNat ∘ natDigits) v = id v :=
      fun v _ => digitsToNat_natDigits v
    rw [List.map_congr_left hpt, List.map_id]
  · exact List.cons_ne_nil _ _
  · intro l hl
    rcases List.mem_cons.mp hl with rfl | hl
    · intro hc
      rcases List.mem_append.mp hc with hc | hc
      · exact absurd hc (by decide)
      · exact fmt3_no_comma v0 hc
    · rcases List.mem_append.mp hl with hl | hl
      · obtain ⟨v, _, rfl⟩ := List.mem_map.mp hl
        exact fmt3_no_comma v
      · rcases hext with rfl | rfl
        · exact absurd hl (List.not_mem_nil l)
        · rcases List.mem_singleton.mp hl with rfl
          exact List.not_mem_nil ','

theorem parseLine_dataLine (row cs : Nat) (v0 : Nat) (vs : List Nat) :
    parseLine (dataLine row cs (v0 :: vs)) = v0 :: vs := by
  have hcomma : pyStr "," = [','] := rfl
  simp only [dataLine]
  by_cases h : row = 63 ∧ cs = 48
  · rw [if_pos h]
    have hline : pyStr "    " ++ joinSep (pyStr ",") ((v0 :: vs).map fmt3)
        = joinSep [',']
          ((pyStr "    " ++ fmt3 v0) :: (vs.map fmt3 ++ [])) := by
      rw [List.append_nil, hcomma, List.map_cons, pad_joinSep]
    rw [hline, parseLine_joinSep v0 vs [] (Or.inl rfl)]
  · rw [if_neg h]
    have hline : pyStr "    " ++ joinSep (pyStr ",") ((v0 :: vs).map fmt3)
          ++ pyStr ","
        = joinSep [',']
          ((pyStr "    " ++ fmt3 v0) :: (vs.map fmt3 ++ [[]])) := by
      rw [hcomma, List.map_cons, pad_joinSep,
        joinSep_append_sep ',' _ (List.cons_ne_nil _ _)]
      rfl
    rw [hline, parseLine_joinSep v0 vs [[]] (Or.inr rfl)]

theorem parseLine_dataLine_ne (row cs : Nat) (chunk : List Nat)
    (h : chunk ≠ []) : parseLine (dataLine row cs chunk) = chunk := by
  cases chunk with
  | nil => exact absurd rfl h
  | cons v0 vs => exact parseLine_dataLine row cs v0 vs

theorem flatMap_congr {α β : Type} (l : List α) (f g : α → List β)
    (h : ∀ a ∈ l, f a = g a) : l.flatMap f = l.flatMap g := by
  induction l with
  | nil => rfl
  | cons a as ih =>
    rw [List.flatMap_cons, List.flatMap_cons, h a (List.mem_cons_self _ _),
      ih (fun a ha => h a (List.mem_cons_of_mem _ ha))]

theorem isDataLine_dataLine (row cs : Nat) (chunk : List Nat) :
    isDataLine (dataLine row cs chunk) = true := by
  simp only [dataLine]
  split <;> rfl

/-- Parsing all data lines in order recovers the pixel sequence. -/
theorem flatMap_parseLine_dataLines (pixels : List Nat)
    (h : pixels.length = 4096) :
    (dataLines pixels).flatMap parseLine = pixels := by
  unfold dataLines
  rw [List.flatMap_assoc]
  have hrow : ∀ row ∈ List.range 64,
      (((List.range 4).map (fun k => 16 * k)).map (fun chunk_start =>
          dataLine row chunk_start
            ((((pixels.drop (row * 64)).take 64).drop chunk_start).take 16))).flatMap
        parseLine
      = (pixels.drop (row * 64)).take 64 := by
    intro row hmem
    have hrow64 : row < 64 := List.mem_range.mp hmem
    have hlen64 : ((pixels.drop (row * 64)).take 64).length = 64 := by
      rw [List.length_take, List.length_drop, h]
      omega
    rw [List.flatMap_map, List.flatMap_map]
    have hpt : ∀ k ∈ List.range 4,
        parseLine (dataLine row (16 * k)
          ((((pixels.drop (row * 64)).take 64).drop (16 * k)).take 16))
        = (((pixels.drop (row * 64)).take 64).drop (k * 16)).take 16 := by
      intro k hk
      have hk4 : k < 4 := List.mem_range.mp hk
      have hchlen :
          (((((pixels.drop (row * 64)).take 64).drop (16 * k)).take 16)).length
            = 16 := by
        rw [List.length_take, List.length_drop, hlen64]
        omega
      have hne :
          ((((pixels.drop (row * 64)).take 64).drop (16 * k)).take 16) ≠ [] := by
        intro e
        rw [e] at hchlen
        simp at hchlen
      rw [parseLine_dataLine_ne _ _ _ hne, Nat.mul_comm 16 k]
    calc ((List.range 4).flatMap fun k => parseLine (dataLine row (16 * k)
            ((((pixels.drop (row * 64)).take 64).drop (16 * k)).take 16)))
        = (List.range 4).flatMap (fun k =>
            (((pixels.drop (row * 64)).take 64).drop (k * 16)).take 16) :=
          flatMap_congr _ _ _ hpt
      _ = (pixels.drop (row * 64)).take 64 :=
          concat_chunks 4 16 _ (by rw [hlen64])
  calc ((List.range 64).flatMap fun row =>
          (((List.range 4).map (fun k => 16 * k)).map (fun chunk_start =>
            dataLine row chunk_start
              ((((pixels.drop (row * 64)).take 64).drop chunk_start).take 16))).flatMap
            parseLine)
      = (List.range 64).flatMap (fun row => (pixels.drop (row * 64)).take 64) :=
        flatMap_congr _ _ _ hrow
    _ = pixels := concat_chunks 64 64 pixels (by rw [h])

/-- Filtering the output lines down to the data lines. -/
theorem filter_lines (pixels : List Nat) (name : List Char)
    (hname : '\n' ∉ name) :
    (splitOnChar '\n' (format_cpp_array pixels name)).filter
      (fun l => isDataLine l) = dataLines pixels := by
  rw [splitLines_format pixels name hname, List.filter_append,
    List.filter_append]
  have h1 : [headerLine1, headerLine2, headerLine3, declLine name].filter
      (fun l => isDataLine l) = [] := by
    have e1 : isDataLine headerLine1 = false := rfl
    have e2 : isDataLine headerLine2 = false := rfl
    have e3 : isDataLine headerLine3 = false := rfl
    have e4 : isDataLine (declLine name) = false := rfl
    simp [List.filter_cons, e1, e2, e3, e4]
  have h2 : (dataLines pixels).filter (fun l => isDataLine l)
      = dataLines pixels := by
    rw [List.filter_eq_self]
    intro l hl
    rw [dataLines_eq] at hl
    obtain ⟨i, _, rfl⟩ := List.mem_map.mp hl
    exact isDataLine_dataLine _ _ _
  have h3 : [pyStr "\x7d;"].filter (fun l => isDataLine l) = [] := rfl
  rw [h1, h2, h3, List.nil_append, List.append_nil]

/-! ## Width and last-character facts -/

theorem natDigits_length_le_three (v : Nat) (h : v ≤ 999) :
    (natDigits v).length ≤ 3 := by
  by_cases h1 : v < 10
  · rw [natDigits_def, if_pos h1]
    simp
  · by_cases h2 : v / 10 < 10
    · rw [natDigits_def, if_neg h1, natDigits_def (v / 10), if_pos h2]
      simp
    · have h3 : v / 10 / 10 < 10 := by omega
      rw [natDigits_def, if_neg h1, natDigits_def (v / 10), if_neg h2,
        natDigits_def (v / 10 / 10), if_pos h3]
      simp

/-- Formatting with spec 3d produces at least 3 characters, and exactly 3
for values up to 999 (so for every byte value). -/
theorem fmt3_length (v : Nat) :
    3 ≤ (fmt3 v).length ∧ (v ≤ 999 → (fmt3 v).length = 3) := by
  unfold fmt3
  rw [List.length_append, List.length_replicate]
  have h1 : 1 ≤ (natDigits v).length :=
    List.length_pos.mpr (natDigits_ne_nil v)
  exact ⟨by omega, fun h => by have := natDigits_length_le_three v h; omega⟩

theorem natDigits_getLast? (n : Nat) :
    ∃ d, d < 10 ∧ (natDigits n).getLast? = some (digitChar d) := by
  rw [natDigits_def]
  by_cases h : n < 10
  · rw [if_pos h]
    exact ⟨n, h, rfl⟩
  · rw [if_neg h, List.getLast?_concat]
    exact ⟨n % 10, Nat.mod_lt _ (by omega), rfl⟩

theorem fmt3_getLast? (v : Nat) :
    ∃ d, d < 10 ∧ (fmt3 v).getLast? = some (digitChar d) := by
  obtain ⟨d, hd, he⟩ := natDigits_getLast? v
  refine ⟨d, hd, ?_⟩
  unfold fmt3
  rw [List.getLast?_append, he]
  rfl

/-- The `(4 + i)`-th output line is the `i`-th data line. -/
theorem output_getD_data (pixels : List Nat) (name : List Char)
    (hname : '\n' ∉ name) (i : Nat) (hi : i < 256) :
    (splitOnChar '\n' (format_cpp_array pixels name)).getD (4 + i) []
      = dataLine (i / 4) (16 * (i % 4))
        ((pixels.drop ((i / 4) * 64 + 16 * (i % 4))).take 16) := by
  rw [splitLines_format pixels name hname, List.getD_eq_getElem?_getD]
  have houter : 4 + i <
      ([headerLine1, headerLine2, headerLine3, declLine name]
        ++ dataLines pixels).length := by
    rw [List.length_append, dataLines_length]
    simp
    omega
  rw [List.getElem?_append_left houter]
  have h4 : ([headerLine1, headerLine2, headerLine3, declLine name] :
      List (List Char)).length ≤ 4 + i := by simp
  rw [@List.getElem?_append_right (List Char)
    [headerLine1, headerLine2, headerLine3, declLine name]
    (dataLines pixels) (4 + i) h4]
  have hsub : 4 + i -
      ([headerLine1, headerLine2, headerLine3, declLine name] :
        List (List Char)).length = i := by simp
  rw [hsub, dataLines_eq]
  have : i < (List.range 256).length := by simpa using hi
  rw [List.getElem?_map, List.getElem?_range hi]
  rfl

/-! ## Claims C1, C4, C5 -/

/-- C1: For every pixel sequence of exactly 4096 values in 0–255, parsing
the numeric values back out of the text produced by `format_cpp_array` (in
reading order) yields exactly the original 4096-value sequence, order and
values preserved; no numeric transformation is applied to any value. -/
theorem C1_roundtrip (pixels : List Nat) (hlen : pixels.length = 4096)
    (hval : ∀ v ∈ pixels, v ≤ 255) :
    parsePixels (format_cpp_array pixels) = pixels := by
  unfold parsePixels
  rw [filter_lines pixels defaultName (by decide),
    flatMap_parseLine_dataLines pixels hlen]

theorem C1_roundtrip_witness :
    (List.replicate 4096 7).length = 4096
    ∧ (∀ v ∈ List.replicate 4096 7, v ≤ 255)
    ∧ parsePixels (format_cpp_array (List.replicate 4096 7))
        = List.replicate 4096 7 := by
  refine ⟨by rw [List.length_replicate],
    fun v hv => by rw [List.eq_of_mem_replicate hv]; omega, ?_⟩
  exact C1_roundtrip (List.replicate 4096 7) (by rw [List.length_replicate])
    (fun v hv => by rw [List.eq_of_mem_replicate hv]; omega)

/-- C4: For every input pixel sequence of exactly 4096 values, the output of
`format_cpp_array` contains exactly 256 data lines plus 4 header/declaration
lines (261 lines in all, with the closing brace line), the data lines being
64 rows split into 4 chunks of 16 values each with every value
right-justified to 3 characters, and the declared array symbol name equals
the requested identifier. -/
theorem C4_formatter_shape (pixels : List Nat) (name : List Char)
    (hlen : pixels.length = 4096) (hname : '\n' ∉ name) :
    (splitOnChar '\n' (format_cpp_array pixels name)).length = 261
    ∧ (splitOnChar '\n' (format_cpp_array pixels name)).take 4
        = [headerLine1, headerLine2, headerLine3,
            pyStr "static const unsigned char " ++ name
              ++ pyStr "[64 * 64] = \x7b"]
    ∧ ((splitOnChar '\n' (format_cpp_array pixels name)).drop 4).take 256
        = (List.range 256).map (fun i => dataLine (i / 4) (16 * (i % 4))
            ((pixels.drop ((i / 4) * 64 + 16 * (i % 4))).take 16))
    ∧ (∀ i, i < 256 →
        ((pixels.drop ((i / 4) * 64 + 16 * (i % 4))).take 16).length = 16)
    ∧ (∀ v, 3 ≤ (fmt3 v).length ∧ (v ≤ 999 → (fmt3 v).length = 3)) := by
  have hsplit := splitLines_format pixels name hname
  have hassoc : [headerLine1, headerLine2, headerLine3, declLine name]
      ++ dataLines pixels ++ [pyStr "\x7d;"]
      = [headerLine1, headerLine2, headerLine3, declLine name]
        ++ (dataLines pixels ++ [pyStr "\x7d;"]) := by
    rw [List.append_assoc]
  have hA4 : ([headerLine1, headerLine2, headerLine3, declLine name] :
      List (List Char)).length = 4 := rfl
  refine ⟨?_, ?_, ?_, ?_, fun v => fmt3_length v⟩
  · rw [hsplit, List.length_append, List.length_append, dataLines_length, hA4]
    rfl
  · rw [hsplit, hassoc, List.take_left' hA4]
    rfl
  · rw [hsplit, hassoc, List.drop_left' hA4,
      List.take_left' (dataLines_length pixels), dataLines_eq]
  · intro i hi
    rw [List.length_take, List.length_drop, hlen]
    omega

theorem C4_formatter_shape_witness :
    (List.replicate 4096 0).length = 4096 ∧ '\n' ∉ defaultName
    ∧ (splitOnChar '\n'
        (format_cpp_array (List.replicate 4096 0) defaultName)).length
      = 261 :=
  ⟨by rw [List.length_replicate], by decide,
    (C4_formatter_shape (List.replicate 4096 0) defaultName
      (by rw [List.length_replicate]) (by decide)).1⟩

/-- C5: For every input pixel sequence of exactly 4096 values, every data
line of `format_cpp_array`'s output ends with a comma except the very last
data line (row 63, chunk starting at 48), which omits the trailing comma. -/
theorem C5_trailing_commas (pixels : List Nat) (name : List Char)
    (hlen : pixels.length = 4096) (hname : '\n' ∉ name) :
    (∀ i, i < 255 →
      ((splitOnChar '\n' (format_cpp_array pixels name)).getD (4 + i)
          []).getLast? = some ',')
    ∧ ∃ c, ((splitOnChar '\n' (format_cpp_array pixels name)).getD 259
          []).getLast? = some c ∧ c ≠ ',' := by
  constructor
  · intro i hi
    rw [output_getD_data pixels name hname i (by omega)]
    simp only [dataLine]
    rw [if_neg (by omega), show (pyStr "," : List Char) = [','] from rfl,
      List.getLast?_concat]
  · rw [show (259 : Nat) = 4 + 255 from rfl,
      output_getD_data pixels name hname 255 (by omega)]
    simp only [dataLine]
    rw [if_pos ⟨trivial, trivial⟩]
    rw [show (255 : Nat) / 4 * 64 + 16 * ((255 : Nat) % 4) = 63 * 64 + 48 by
      norm_num]
    have hchlen : ((pixels.drop (63 * 64 + 48)).take 16).length = 16 := by
      rw [List.length_take, List.length_drop, hlen]
      omega
    have hne : ((pixels.drop (63 * 64 + 48)).take 16) ≠ [] := by
      intro e
      rw [e] at hchlen
      simp at hchlen
    have hmapne : ((pixels.drop (63 * 64 + 48)).take 16).map fmt3 ≠ [] := by
      simpa using hne
    have hmem := List.getLast_mem hmapne
    obtain ⟨v, hv, hfv⟩ := List.mem_map.mp hmem
    obtain ⟨d, hd, hlast⟩ := fmt3_getLast? v
    refine ⟨digitChar d, ?_, (digitChar_facts d hd).2.2.1⟩
    have e := joinSep_getLast?_concat (pyStr ",")
      (((pixels.drop (63 * 64 + 48)).take 16).map fmt3).dropLast
      ((((pixels.drop (63 * 64 + 48)).take 16).map fmt3).getLast hmapne)
      (hfv ▸ fmt3_ne_nil v)
    rw [List.dropLast_concat_getLast hmapne] at e
    rw [List.getLast?_append, e, ← hfv, hlast]
    rfl

theorem C5_trailing_commas_witness :
    (List.replicate 4096 0).length = 4096 ∧ '\n' ∉ defaultName
    ∧ ((splitOnChar '\n'
        (format_cpp_array (List.replicate 4096 0) defaultName)).getD (4 + 0)
          []).getLast? = some ',' := by
  refine ⟨by rw [List.length_replicate], by decide, ?_⟩
  exact (C5_trailing_commas (List.replicate 4096 0) defaultName
    (by rw [List.length_replicate]) (by decide)).1 0 (by omega)

/-- C8: For the constant input sequence of 4096 values all equal to 128,
the output of `format_cpp_array` consists of the 4 header/declaration
lines, 255 data lines reading `    128,128,...,128,` (16 times, trailing
comma), one final data line `    128,128,...,128` without the trailing
comma, and the closing `};` — 256 data lines in total. -/
theorem C8_midgray :
    splitOnChar '\n' (format_cpp_array (List.replicate 4096 128))
      = [headerLine1, headerLine2, headerLine3, declLine defaultName]
        ++ (List.replicate 255
            (pyStr "    128,128,128,128,128,128,128,128,128,128,128,128,128,128,128,128,")
          ++ [pyStr "    128,128,128,128,128,128,128,128,128,128,128,128,128,128,128,128"])
        ++ [pyStr "\x7d;"] := by
  rw [splitLines_format (List.replicate 4096 128) defaultName (by decide)]
  have hdl : dataLines (List.replicate 4096 128)
      = List.replicate 255
          (pyStr "    128,128,128,128,128,128,128,128,128,128,128,128,128,128,128,128,")
        ++ [pyStr "    128,128,128,128,128,128,128,128,128,128,128,128,128,128,128,128"] := by
    rw [dataLines_eq]
    have hpt : ∀ i ∈ List.range 256,
        dataLine (i / 4) (16 * (i % 4))
          (((List.replicate 4096 128 : List Nat).drop
            ((i / 4) * 64 + 16 * (i % 4))).take 16)
        = dataLine (i / 4) (16 * (i % 4)) (List.replicate 16 128) := by
      intro i hi
      have hi' : i < 256 := List.mem_range.mp hi
      rw [List.drop_replicate, List.take_replicate]
      have hoff : 16 ≤ 4096 - ((i / 4) * 64 + 16 * (i % 4)) := by omega
      rw [min_eq_left hoff]
    rw [List.map_congr_left hpt,
      show (256 : Nat) = 255 + 1 from rfl, List.range_succ, List.map_append]
    have hC : ∀ i ∈ List.range 255,
        dataLine (i / 4) (16 * (i % 4)) (List.replicate 16 128)
        = pyStr "    128,128,128,128,128,128,128,128,128,128,128,128,128,128,128,128," := by
      intro i hi
      have hi' : i < 255 := List.mem_range.mp hi
      simp only [dataLine]
      rw [if_neg (by omega)]
      rfl
    rw [List.map_congr_left hC, List.map_const', List.length_range]
    have hN : dataLine (255 / 4) (16 * (255 % 4)) (List.replicate 16 128)
        = pyStr "    128,128,128,128,128,128,128,128,128,128,128,128,128,128,128,128" := by
      simp only [dataLine]
      rw [if_pos (by norm_num)]
      rfl
    rw [List.map_cons, List.map_nil, hN]
  rw [hdl]

/-! ## Lemmas about the regex search -/

theorem range_findSome?_some {β : Type} {f : Nat → Option β} {n : Nat} {b : β}
    (h : (List.range n).findSome? f = some b) :
    ∃ i, i < n ∧ f i = some b ∧ ∀ j, j < i → f j = none := by
  rw [List.findSome?_eq_some_iff] at h
  obtain ⟨l₁, a, l₂, hsplit, hfa, hnone⟩ := h
  have hlen : l₁.length + (1 + l₂.length) = n := by
    have hc := congrArg List.length hsplit
    simp only [List.length_range, List.length_append, List.length_cons] at hc
    omega
  have ha : a = l₁.length := by
    have h2 := congrArg (fun l => l[l₁.length]?) hsplit
    simp only at h2
    rw [List.getElem?_range (by omega),
      List.getElem?_append_right (Nat.le_refl _), Nat.sub_self] at h2
    simp only [List.getElem?_cons_zero] at h2
    exact (Option.some.inj h2).symm
  refine ⟨a, by omega, hfa, ?_⟩
  intro j hj
  apply hnone
  have hl₁ : l₁ = List.range l₁.length := by
    have h3 := congrArg (fun l => l.take l₁.length) hsplit
    simp only at h3
    rw [List.take_range, List.take_left] at h3
    rw [min_eq_left (by omega)] at h3
    exact h3.symm
  rw [hl₁, List.mem_range]
  omega

theorem range_findSome?_eq_some {β : Type} {f : Nat → Option β} {n i : Nat}
    {b : β} (hi : i < n) (hf : f i = some b)
    (hmin : ∀ j, j < i → f j = none) :
    (List.range n).findSome? f = some b := by
  rw [List.findSome?_eq_some_iff]
  refine ⟨List.range i, i, (List.range n).drop (i + 1), ?_, hf, ?_⟩
  · have h1 : List.range n
        = (List.range n).take (i + 1) ++ (List.range n).drop (i + 1) :=
      (List.take_append_drop _ _).symm
    rw [List.take_range, min_eq_left (by omega), List.range_succ,
      List.append_assoc] at h1
    exact h1
  · intro x hx
    exact hmin x (List.mem_range.mp hx)

theorem range_findSome?_none {β : Type} {f : Nat → Option β} {n : Nat}
    (h : (List.range n).findSome? f = none) : ∀ i, i < n → f i = none := by
  rw [List.findSome?_eq_none_iff] at h
  intro i hi
  exact h i (List.mem_range.mpr hi)

theorem tryMatchFrom_ge (content : List Char) (s : Nat)
    (h : content.length ≤ s) : tryMatchFrom content s = none := by
  unfold tryMatchFrom
  rw [if_neg]
  rw [List.drop_eq_nil_of_le h]
  decide

theorem reSearch_none_forall (content : List Char)
    (h : reSearch content = none) : ∀ s, tryMatchFrom content s = none := by
  intro s
  by_cases hs : s < content.length + 1
  · have := range_findSome?_none h s hs
    rcases h2 : tryMatchFrom content s with _ | e
    · rfl
    · rw [h2] at this
      simp at this
  · exact tryMatchFrom_ge content s (by omega)

theorem reSearch_some_elim (content : List Char) (s e : Nat)
    (h : reSearch content = some (s, e)) :
    tryMatchFrom content s = some e
    ∧ ∀ s', s' < s → tryMatchFrom content s' = none := by
  obtain ⟨i, hi, hfi, hmin⟩ := range_findSome?_some h
  rcases htm : tryMatchFrom content i with _ | e'
  · rw [htm] at hfi
    simp at hfi
  · rw [htm] at hfi
    simp only [Option.map_some'] at hfi
    obtain ⟨rfl, rfl⟩ : i = s ∧ e' = e := by
      have hp := Option.some.inj hfi
      exact ⟨congrArg Prod.fst hp, congrArg Prod.snd hp⟩
    refine ⟨htm, fun s' hs' => ?_⟩
    have h2 := hmin s' hs'
    rcases h3 : tryMatchFrom content s' with _ | x
    · rfl
    · rw [h3] at h2
      simp at h2

theorem tailMatch_eq (content : List Char) (q e : Nat)
    (h : tailMatch content q = some e) :
    lit2.isPrefixOf (content.drop q)
    ∧ ((content.drop (q + lit2.length)).takeWhile
        (fun c => c ≠ '}')).length ≠ 0
    ∧ lit3.isPrefixOf (content.drop (q + lit2.length
        + ((content.drop (q + lit2.length)).takeWhile
            (fun c => c ≠ '}')).length))
    ∧ e = q + lit2.length
        + ((content.drop (q + lit2.length)).takeWhile
            (fun c => c ≠ '}')).length + lit3.length := by
  simp only [tailMatch] at h
  by_cases h2 : lit2.isPrefixOf (content.drop q)
  · rw [if_pos h2] at h
    by_cases h3 : ((content.drop (q + lit2.length)).takeWhile
          (fun c => c ≠ '}')).length ≠ 0
      ∧ lit3.isPrefixOf (content.drop (q + lit2.length
          + ((content.drop (q + lit2.length)).takeWhile
              (fun c => c ≠ '}')).length))
    · rw [if_pos h3] at h
      exact ⟨h2, h3.1, h3.2, (Option.some.inj h).symm⟩
    · rw [if_neg h3] at h
      cases h
  · rw [if_neg h2] at h
    cases h

theorem tailMatch_bounds (content : List Char) (q e : Nat)
    (h : tailMatch content q = some e) :
    q + lit2.length < e ∧ e ≤ content.length := by
  obtain ⟨h2, hrun, h3, he⟩ := tailMatch_eq content q e h
  have hl3 : lit3.length = 2 := rfl
  have hpre3 := (List.isPrefixOf_iff_prefix.mp h3).length_le
  rw [List.length_drop, hl3] at hpre3
  omega

theorem tryMatchFrom_some_elim (content : List Char) (s e : Nat)
    (h : tryMatchFrom content s = some e) :
    lit1.isPrefixOf (content.drop s)
    ∧ ∃ q, q < content.length + 1 ∧ s + lit1.length ≤ q
      ∧ tailMatch content q = some e
      ∧ ∀ q', s + lit1.length ≤ q' → q' < q → tailMatch content q' = none := by
  unfold tryMatchFrom at h
  by_cases hp : lit1.isPrefixOf (content.drop s)
  · rw [if_pos hp] at h
    obtain ⟨q, hq, hfq, hqmin⟩ := range_findSome?_some h
    by_cases hg : s + lit1.length ≤ q
    · rw [if_pos hg] at hfq
      refine ⟨hp, q, hq, hg, hfq, fun q' hq1 hq2 => ?_⟩
      have h2 := hqmin q' hq2
      rw [if_pos hq1] at h2
      exact h2
    · rw [if_neg hg] at hfq
      cases hfq
  · rw [if_neg hp] at h
    cases h

theorem tryMatchFrom_isSome_of (content : List Char) (s₀ q e : Nat)
    (hp1 : lit1.isPrefixOf (content.drop s₀))
    (hq : s₀ + lit1.length ≤ q) (ht : tailMatch content q = some e) :
    ∃ e', tryMatchFrom content s₀ = some e' := by
  unfold tryMatchFrom
  rw [if_pos hp1]
  have hqlen : q < content.length + 1 := by
    have := (tailMatch_bounds content q e ht).2
    have h2 := (tailMatch_bounds content q e ht).1
    omega
  rcases hfs : (List.range (content.length + 1)).findSome? (fun q' =>
      if s₀ + lit1.length ≤ q' then tailMatch content q' else none)
    with _ | e'
  · exfalso
    have h2 := range_findSome?_none hfs q hqlen
    rw [if_pos hq, ht] at h2
    cases h2
  · exact ⟨e', rfl⟩

/-- If `reSearch` matched at `s`, there is no occurrence of `lit1` strictly
before `s` (an earlier occurrence would have completed to a match using the
same tail). -/
theorem no_lit1_before (content : List Char) (s e : Nat)
    (h : reSearch content = some (s, e)) :
    ∀ s₀, s₀ < s → ¬ lit1.isPrefixOf (content.drop s₀) := by
  obtain ⟨hs, hmin⟩ := reSearch_some_elim content s e h
  obtain ⟨hp1, q, hq, hgq, htq, -⟩ := tryMatchFrom_some_elim content s e hs
  intro s₀ h0 hp0
  obtain ⟨e', he'⟩ := tryMatchFrom_isSome_of content s₀ q e hp0
    (by omega) htq
  have h2 := hmin s₀ h0
  rw [he'] at h2
  cases h2

/-! ## Characterization of `update_main_cpp` on a found match -/

theorem update_main_cpp_eq (content code : List Char) (s e : Nat)
    (h : reSearch content = some (s, e)) :
    update_main_cpp content code
      = some (content.take s ++ code ++ content.drop e) := by
  unfold update_main_cpp
  rw [h]

theorem reSearch_span_bounds (content : List Char) (s e : Nat)
    (h : reSearch content = some (s, e)) : s ≤ e ∧ e ≤ content.length := by
  obtain ⟨hs, -⟩ := reSearch_some_elim content s e h
  obtain ⟨-, q, -, hgq, htq, -⟩ := tryMatchFrom_some_elim content s e hs
  obtain ⟨hb1, hb2⟩ := tailMatch_bounds content q e htq
  constructor
  · omega
  · exact hb2

theorem replaced_take (content code : List Char) (s e : Nat)
    (h : reSearch content = some (s, e)) :
    (content.take s ++ code ++ content.drop e).take s = content.take s := by
  have hb := reSearch_span_bounds content s e h
  have hlen : (content.take s).length = s := by
    rw [List.length_take]
    exact min_eq_left (by omega)
  rw [List.append_assoc, List.take_left' hlen]

theorem replaced_drop (content code : List Char) (s e : Nat)
    (h : reSearch content = some (s, e)) :
    (content.take s ++ code ++ content.drop e).drop (s + code.length)
      = content.drop e := by
  have hb := reSearch_span_bounds content s e h
  have hlen : (content.take s ++ code).length = s + code.length := by
    rw [List.length_append, List.length_take, min_eq_left (by omega)]
  rw [List.drop_left' hlen]

/-! ## Claims C2, C6, C10, C7, C9 -/

/-- C2: In update mode, for every target file whose content contains no
region matching the expected array signature (`re.search` fails — and, as
the last conjunct shows, no position at all admits a match), `main` exits
with status 1, prints nothing, and performs no write: the file content is
left byte-for-byte unchanged. -/
theorem C2_no_match_exit (content : List Char) (pixels : List Nat)
    (hlen : pixels.length = 4096) (h : reSearch content = none) :
    mainRun pixels (some content) = ⟨1, none, none⟩
    ∧ update_main_cpp content (format_cpp_array pixels) = none
    ∧ ∀ s, tryMatchFrom content s = none := by
  have hupd : update_main_cpp content (format_cpp_array pixels) = none := by
    unfold update_main_cpp
    rw [h]
  refine ⟨?_, hupd, reSearch_none_forall content h⟩
  unfold mainRun
  rw [if_neg (by omega)]
  simp only [mainAfterCheck]
  rw [hupd]

theorem C2_no_match_exit_witness :
    (List.replicate 4096 0).length = 4096
    ∧ reSearch (pyStr "hello") = none
    ∧ mainRun (List.replicate 4096 0) (some (pyStr "hello"))
        = ⟨1, none, none⟩ :=
  ⟨by rw [List.length_replicate], by decide,
    (C2_no_match_exit (pyStr "hello") (List.replicate 4096 0)
      (by rw [List.length_replicate]) (by decide)).1⟩

/-- C6: In update mode, when the content contains a region matching the
array pattern (matched span `[s, e)` with `s ≤ e ≤ length`), the written
file equals the content before the span, then the new formatted text, then
the content after the span; all bytes outside the span are preserved. -/
theorem C6_replace_span (content code : List Char) (s e : Nat)
    (h : reSearch content = some (s, e)) :
    update_main_cpp content code
      = some (content.take s ++ code ++ content.drop e)
    ∧ s ≤ e ∧ e ≤ content.length
    ∧ (content.take s ++ code ++ content.drop e).take s = content.take s
    ∧ (content.take s ++ code ++ content.drop e).drop (s + code.length)
        = content.drop e :=
  ⟨update_main_cpp_eq content code s e h,
    (reSearch_span_bounds content s e h).1,
    (reSearch_span_bounds content s e h).2,
    replaced_take content code s e h,
    replaced_drop content code s e h⟩

theorem C6_replace_span_witness :
    reSearch (lit1 ++ lit2 ++ pyStr "1\x7d;")
      = some (0, (lit1 ++ lit2 ++ pyStr "1\x7d;").length)
    ∧ update_main_cpp (lit1 ++ lit2 ++ pyStr "1\x7d;") (pyStr "X")
        = some ((lit1 ++ lit2 ++ pyStr "1\x7d;").take 0 ++ pyStr "X"
            ++ (lit1 ++ lit2 ++ pyStr "1\x7d;").drop
              (lit1 ++ lit2 ++ pyStr "1\x7d;").length) :=
  ⟨by decide,
    (C6_replace_span (lit1 ++ lit2 ++ pyStr "1\x7d;") (pyStr "X") 0
      (lit1 ++ lit2 ++ pyStr "1\x7d;").length (by decide)).1⟩

/-- C10: If the content admits matches at several positions,
`update_main_cpp` replaces only the leftmost matching region (`s` is
minimal among all match positions), and everything from the end of the
replaced span on — in particular every later matching occurrence — is
copied unchanged into the written file. -/
theorem C10_leftmost_match (content code : List Char) (s e : Nat)
    (h : reSearch content = some (s, e)) :
    (∀ s' e', tryMatchFrom content s' = some e' → s ≤ s')
    ∧ update_main_cpp content code
        = some (content.take s ++ code ++ content.drop e)
    ∧ (content.take s ++ code ++ content.drop e).drop (s + code.length)
        = content.drop e := by
  refine ⟨?_, update_main_cpp_eq content code s e h,
    replaced_drop content code s e h⟩
  intro s' e' h'
  by_contra hlt
  have := (reSearch_some_elim content s e h).2 s' (by omega)
  rw [h'] at this
  cases this

set_option maxRecDepth 40000 in
theorem C10_leftmost_match_witness :
    reSearch (lit1 ++ lit2 ++ pyStr "1\x7d;" ++ (lit1 ++ lit2 ++ pyStr "1\x7d;"))
      = some (0, (lit1 ++ lit2 ++ pyStr "1\x7d;").length)
    ∧ tryMatchFrom
        (lit1 ++ lit2 ++ pyStr "1\x7d;" ++ (lit1 ++ lit2 ++ pyStr "1\x7d;"))
        (lit1 ++ lit2 ++ pyStr "1\x7d;").length
      = some (2 * (lit1 ++ lit2 ++ pyStr "1\x7d;").length)
    ∧ 0 ≤ (lit1 ++ lit2 ++ pyStr "1\x7d;").length :=
  ⟨by decide, by decide,
    (C10_leftmost_match
      (lit1 ++ lit2 ++ pyStr "1\x7d;" ++ (lit1 ++ lit2 ++ pyStr "1\x7d;"))
      (pyStr "X") 0 (lit1 ++ lit2 ++ pyStr "1\x7d;").length (by decide)).1
      (lit1 ++ lit2 ++ pyStr "1\x7d;").length
      (2 * (lit1 ++ lit2 ++ pyStr "1\x7d;").length) (by decide)⟩

/-- C7: For every decoded pixel sequence whose length is not 4096, `main`
exits with status 1 and produces no output (nothing printed, nothing
written); when the length is 4096 and the remaining stages succeed (print
mode, or update mode with the pattern found), the exit status is 0. -/
theorem C7_exit_codes (pixels : List Nat) (target : Option (List Char)) :
    (pixels.length ≠ 4096 → mainRun pixels target = ⟨1, none, none⟩)
    ∧ (pixels.length = 4096 →
        (target = none → (mainRun pixels target).exitCode = 0)
        ∧ ∀ content s e, target = some content →
            reSearch content = some (s, e) →
            (mainRun pixels target).exitCode = 0) := by
  constructor
  · intro h
    unfold mainRun
    rw [if_pos (by omega)]
  · intro h
    constructor
    · rintro rfl
      unfold mainRun
      rw [if_neg (by omega)]
      rfl
    · rintro content s e rfl hre
      unfold mainRun
      rw [if_neg (by omega)]
      simp only [mainAfterCheck]
      rw [update_main_cpp_eq content _ s e hre]

theorem C7_exit_codes_witness :
    ([0] : List Nat).length ≠ 4096
    ∧ mainRun [0] none = ⟨1, none, none⟩
    ∧ (List.replicate 4096 0).length = 4096
    ∧ (mainRun (List.replicate 4096 0) none).exitCode = 0 :=
  ⟨by decide, (C7_exit_codes [0] none).1 (by decide),
    by rw [List.length_replicate],
    ((C7_exit_codes (List.replicate 4096 0) none).2
      (by rw [List.length_replicate])).1 rfl⟩

/-- C9: Whenever `decode_png` returns normally, the returned pixel list has
length exactly 4096 — any image whose size differs from 64×64 is resized to
64×64 first — so the pixel-count-mismatch exit branch of `main` is
unreachable for a successfully decoded image: `mainRun` always proceeds to
the post-check stage. -/
theorem C9_decode_length (img : PILImage) (target : Option (List Char)) :
    (decode_png img).length = 4096
    ∧ mainRun (decode_png img) target
        = mainAfterCheck (decode_png img) target := by
  have hlen : (decode_png img).length = 4096 := by
    simp only [decode_png]
    by_cases h : (img.width, img.height) ≠ (64, 64)
    · rw [if_pos h]
      simp [resizeNearest]
    · rw [if_neg h]
      have h2 : (img.width, img.height) = (64, 64) := not_not.mp h
      have hw : img.width = 64 := congrArg Prod.fst h2
      have hh : img.height = 64 := congrArg Prod.snd h2
      rw [img.size_eq, hw, hh]
  refine ⟨hlen, ?_⟩
  unfold mainRun
  rw [if_neg (by omega)]

/-! ## Idempotence of update mode (claim C3): structure of the formatted
code as seen by the matcher -/

theorem lit_lengths : lit1.length = 32 ∧ lit2.length = 55
    ∧ lit3.length = 2 ∧ headerJoined.length = 238 := ⟨rfl, rfl, rfl, rfl⟩

theorem lit1_prefix_header : lit1.isPrefixOf headerJoined = true := by decide

theorem header_drop_lit2 : headerJoined.drop 183 = lit2 := by decide

/-- The literal `lit1` has no nontrivial self-overlap: no proper nonempty
suffix of it
is one of its prefixes. -/
theorem lit1_no_overlap : ∀ j ∈ List.range lit1.length,
    j = 0 ∨ ¬ (lit1.drop j).isPrefixOf lit1 := by decide

set_option maxRecDepth 100000 in
/-- The literal `lit2` does not occur in the joined header before its final
position. -/
theorem lit2_not_in_header : ∀ j ∈ List.range 183,
    32 ≤ j → ¬ lit2.isPrefixOf (headerJoined.drop j) := by decide

theorem dataLines_ne_nil (pixels : List Nat) : dataLines pixels ≠ [] := by
  intro h
  have h2 := dataLines_length pixels
  rw [h] at h2
  simp at h2

/-- The formatter output decomposed as the matcher sees it: the concrete
header block, a newline, the data body, and the closing `\n};`. -/
theorem format_decomp (pixels : List Nat) :
    format_cpp_array pixels
      = headerJoined ++ '\n' :: (bodyText pixels ++ '\n' :: pyStr "\x7d;") := by
  unfold format_cpp_array headerJoined bodyText
  rw [joinSep_append ['\n']
    ([headerLine1, headerLine2, headerLine3, declLine defaultName]
      ++ dataLines pixels) [pyStr "\x7d;"] (by simp) (by simp)]
  rw [joinSep_append ['\n']
    [headerLine1, headerLine2, headerLine3, declLine defaultName]
    (dataLines pixels) (by simp) (dataLines_ne_nil pixels)]
  rw [show joinSep ['\n'] [pyStr "\x7d;"] = pyStr "\x7d;" from rfl]
  simp [List.append_assoc]

theorem format_length (pixels : List Nat) :
    (format_cpp_array pixels).length = (bodyText pixels).length + 242 := by
  rw [format_decomp]
  simp only [List.length_append, List.length_cons]
  have h := lit_lengths.2.2.2
  rw [h]
  have : (pyStr "\x7d;").length = 2 := rfl
  rw [this]
  omega

theorem bodyText_chars (pixels : List Nat) :
    ∀ c ∈ bodyText pixels, c ∈ pyStr " ,\n0123456789" := by
  intro c hc
  unfold bodyText at hc
  rcases mem_joinSep _ _ c hc with hx | ⟨l, hl, hxl⟩
  · rw [List.mem_singleton.mp hx]
    decide
  · exact (by decide : ∀ y ∈ pyStr " ,0123456789", y ∈ pyStr " ,\n0123456789")
      c (dataLines_chars pixels l hl c hxl)

theorem bodyText_no_rbrace (pixels : List Nat) :
    ∀ c ∈ bodyText pixels, decide (c ≠ '}') = true := by
  intro c hc
  rw [decide_eq_true_eq]
  exact (by decide : ∀ y ∈ pyStr " ,\n0123456789", y ≠ '}') c
    (bodyText_chars pixels c hc)

theorem takeWhile_append_all {p : Char → Bool} (a b : List Char)
    (h : ∀ x ∈ a, p x = true) :
    (a ++ b).takeWhile p = a ++ b.takeWhile p := by
  induction a with
  | nil => simp
  | cons x xs ih =>
    rw [List.cons_append,
      List.takeWhile_cons_of_pos (h x (List.mem_cons_self _ _)),
      ih (fun y hy => h y (List.mem_cons_of_mem _ hy))]
    rfl

/-- From `p <+: a ++ b` with `a` shorter than `p`, the part of `p` past
`a` is a prefix of `b`. -/
theorem prefix_drop_of_prefix_append {p a b : List Char}
    (h : p <+: a ++ b) (hlen : a.length ≤ p.length) :
    p.drop a.length <+: b := by
  obtain ⟨t, ht⟩ := h
  have h2 := congrArg (List.drop a.length) ht
  rw [List.drop_append_eq_append_drop, List.drop_append_eq_append_drop]
    at h2
  rw [Nat.sub_eq_zero_of_le hlen, Nat.sub_self, List.drop_zero,
    List.drop_length, List.nil_append] at h2
  exact ⟨t.drop 0, h2⟩

/-- No occurrence of `lit1` strictly before the end of `P` in `P ++ X`,
provided `P` itself contains no full occurrence and `X` starts with
`lit1`. -/
theorem no_lit1_in_prefix (P X : List Char)
    (hX : lit1.isPrefixOf X = true)
    (hP : ∀ j, j + lit1.length ≤ P.length → ¬ lit1 <+: P.drop j) :
    ∀ s', s' < P.length → ¬ lit1 <+: (P ++ X).drop s' := by
  intro s' hs' hpre
  rw [List.drop_append_eq_append_drop, Nat.sub_eq_zero_of_le (by omega),
    List.drop_zero] at hpre
  by_cases hcase : s' + lit1.length ≤ P.length
  · apply hP s' hcase
    exact List.prefix_of_prefix_length_le hpre (List.prefix_append _ _)
      (by rw [List.length_drop]; omega)
  · have hlenPd : (P.drop s').length = P.length - s' := List.length_drop _ _
    have hdp : lit1.drop (P.drop s').length <+: X :=
      prefix_drop_of_prefix_append hpre (by rw [hlenPd]; omega)
    have hXp : lit1 <+: X := List.isPrefixOf_iff_prefix.mp hX
    have hover : lit1.drop (P.drop s').length <+: lit1 :=
      List.prefix_of_prefix_length_le hdp hXp
        (by rw [List.length_drop]; omega)
    have hj2 : (P.drop s').length < lit1.length := by
      rw [hlenPd]
      have := lit_lengths.1
      omega
    rcases lit1_no_overlap (P.drop s').length (List.mem_range.mpr hj2)
      with h0 | hno
    · rw [hlenPd] at h0
      omega
    · exact hno (List.isPrefixOf_iff_prefix.mpr hover)

/-- Inside `P ++ (code ++ S)` with `code` a formatter output, the tail of
the pattern matches at offset 183 past `P` (the position of `lit2` in the
header) and the match ends exactly at the end of `code`. -/
theorem tailMatch_self (P S : List Char) (pixels : List Nat) :
    tailMatch (P ++ (format_cpp_array pixels ++ S)) (P.length + 183)
      = some (P.length + (format_cpp_array pixels).length) := by
  have hfmt : pyStr "\x7d;" = '}' :: ';' :: [] := rfl
  have hdrop183 :
      (P ++ (format_cpp_array pixels ++ S)).drop (P.length + 183)
      = lit2 ++ ('\n' :: (bodyText pixels ++ '\n' :: pyStr "\x7d;") ++ S) := by
    rw [List.drop_append, format_decomp, List.append_assoc,
      List.drop_append_of_le_length (by rw [lit_lengths.2.2.2]; omega),
      header_drop_lit2]
  have hidx1 : P.length + 183 + lit2.length = P.length + 238 := by
    rw [lit_lengths.2.1]
  have hdrop238 :
      (P ++ (format_cpp_array pixels ++ S)).drop (P.length + 238)
      = '\n' :: (bodyText pixels ++ '\n' :: pyStr "\x7d;") ++ S := by
    rw [List.drop_append, format_decomp, List.append_assoc,
      List.drop_left' lit_lengths.2.2.2]
  have hsplitend : ('\n' :: (bodyText pixels ++ '\n' :: pyStr "\x7d;") ++ S : List Char)
      = ('\n' :: (bodyText pixels ++ ['\n'])) ++ ('}' :: ';' :: S) := by
    rw [hfmt]
    simp [List.append_assoc]
  have hrun : (('\n' :: (bodyText pixels ++ '\n' :: pyStr "\x7d;") ++ S :
        List Char)).takeWhile (fun c => c ≠ '}')
      = '\n' :: (bodyText pixels ++ ['\n']) := by
    rw [hfmt, List.cons_append]
    rw [List.takeWhile_cons_of_pos (by decide)]
    rw [List.append_assoc]
    rw [takeWhile_append_all (bodyText pixels) _ (bodyText_no_rbrace pixels)]
    rw [List.cons_append]
    rw [List.takeWhile_cons_of_pos (by decide)]
    rw [List.cons_append]
    rw [List.takeWhile_cons_of_neg (by decide)]
  have hlenrun : (('\n' :: (bodyText pixels ++ ['\n'])) : List Char).length
      = (bodyText pixels).length + 2 := by
    simp
  simp only [tailMatch]
  rw [hdrop183,
    if_pos (List.isPrefixOf_iff_prefix.mpr (List.prefix_append _ _)),
    hidx1, hdrop238, hrun, hlenrun]
  have hdropend :
      (P ++ (format_cpp_array pixels ++ S)).drop
        (P.length + 238 + ((bodyText pixels).length + 2))
      = '}' :: ';' :: S := by
    rw [← List.drop_drop, hdrop238, hsplitend,
      List.drop_left' (by simp)]
  rw [hdropend]
  rw [if_pos ⟨by omega, List.isPrefixOf_iff_prefix.mpr ⟨S, rfl⟩⟩]
  have hend : P.length + 238 + ((bodyText pixels).length + 2) + lit3.length
      = P.length + (format_cpp_array pixels).length := by
    rw [lit_lengths.2.2.1, format_length]
    omega
  rw [hend]

/-- Anchored at the boundary between `P` and a formatter output, the full
pattern matches and spans exactly the formatter output. -/
theorem tryMatch_self (P S : List Char) (pixels : List Nat) :
    tryMatchFrom (P ++ (format_cpp_array pixels ++ S)) P.length
      = some (P.length + (format_cpp_array pixels).length) := by
  have hX1 : lit1.isPrefixOf (format_cpp_array pixels ++ S) = true := by
    rw [format_decomp]
    apply List.isPrefixOf_iff_prefix.mpr
    exact (List.isPrefixOf_iff_prefix.mp lit1_prefix_header).trans
      ((List.prefix_append _ _).trans (List.prefix_append _ _))
  unfold tryMatchFrom
  rw [List.drop_left, if_pos hX1]
  have hcl : (format_cpp_array pixels).length = (bodyText pixels).length + 242 :=
    format_length pixels
  refine @range_findSome?_eq_some Nat _ _ (P.length + 183) _ ?_ ?_ ?_
  · -- the witness position is inside the range
    rw [List.length_append, List.length_append]
    omega
  · rw [if_pos (by rw [lit_lengths.1]; omega)]
    exact tailMatch_self P S pixels
  · intro j hj
    by_cases hj32 : P.length + lit1.length ≤ j
    · rw [if_pos hj32]
      rw [lit_lengths.1] at hj32
      -- j = P.length + j' with 32 ≤ j' < 183: no lit2 there
      simp only [tailMatch]
      rw [if_neg]
      intro hpre2
      have hdropj : (P ++ (format_cpp_array pixels ++ S)).drop j
          = headerJoined.drop (j - P.length)
            ++ ('\n' :: (bodyText pixels ++ '\n' :: pyStr "\x7d;") ++ S) := by
        rw [List.drop_append_eq_append_drop,
          List.drop_eq_nil_of_le (by omega), List.nil_append,
          format_decomp, List.append_assoc,
          List.drop_append_of_le_length (by rw [lit_lengths.2.2.2]; omega)]
      rw [hdropj] at hpre2
      have hlen2 : lit2.length ≤ (headerJoined.drop (j - P.length)).length := by
        rw [List.length_drop, lit_lengths.2.1, lit_lengths.2.2.2]
        omega
      have hpre3 : lit2 <+: headerJoined.drop (j - P.length) :=
        List.prefix_of_prefix_length_le
          (List.isPrefixOf_iff_prefix.mp hpre2)
          (List.prefix_append _ _) hlen2
      exact lit2_not_in_header (j - P.length)
        (List.mem_range.mpr (by omega)) (by omega)
        (List.isPrefixOf_iff_prefix.mpr hpre3)
    · rw [if_neg hj32]

/-- C3: Update mode is idempotent.  If the target content matches at span
`[s, e)`, the first application writes
`content[:s] ++ format_cpp_array pixels ++ content[e:]`, and applying the
update again to that file with the same pixel data writes back exactly the
same content. -/
theorem C3_update_idempotent (content : List Char) (pixels : List Nat)
    (s e : Nat) (hlen : pixels.length = 4096)
    (h : reSearch content = some (s, e)) :
    update_main_cpp content (format_cpp_array pixels)
      = some (content.take s ++ format_cpp_array pixels ++ content.drop e)
    ∧ update_main_cpp
        (content.take s ++ format_cpp_array pixels ++ content.drop e)
        (format_cpp_array pixels)
      = some (content.take s ++ format_cpp_array pixels
          ++ content.drop e) := by
  have hb := reSearch_span_bounds content s e h
  have hPl : (content.take s).length = s := by
    rw [List.length_take]
    exact min_eq_left (by omega)
  have hX1 : lit1.isPrefixOf (format_cpp_array pixels ++ content.drop e)
      = true := by
    rw [format_decomp]
    apply List.isPrefixOf_iff_prefix.mpr
    exact (List.isPrefixOf_iff_prefix.mp lit1_prefix_header).trans
      ((List.prefix_append _ _).trans (List.prefix_append _ _))
  have hre : reSearch (content.take s
        ++ (format_cpp_array pixels ++ content.drop e))
      = some ((content.take s).length,
          (content.take s).length + (format_cpp_array pixels).length) := by
    unfold reSearch
    refine @range_findSome?_eq_some (Nat × Nat) _ _ (content.take s).length
      _ ?_ ?_ ?_
    · rw [List.length_append]
      omega
    · rw [tryMatch_self (content.take s) (content.drop e) pixels]
      rfl
    · intro j hj
      have hnone : tryMatchFrom (content.take s
            ++ (format_cpp_array pixels ++ content.drop e)) j = none := by
        unfold tryMatchFrom
        rw [if_neg]
        intro hpre1
        apply no_lit1_in_prefix (content.take s)
          (format_cpp_array pixels ++ content.drop e) hX1 ?_ j hj
          (List.isPrefixOf_iff_prefix.mp hpre1)
        intro j' hj' hpre
        rw [List.drop_take] at hpre
        have h2 : lit1 <+: content.drop j' :=
          hpre.trans (List.take_prefix _ _)
        rw [hPl, lit_lengths.1] at hj'
        exact no_lit1_before content s e h j' (by omega)
          (List.isPrefixOf_iff_prefix.mpr h2)
      rw [hnone]
      rfl
  rw [hPl] at hre
  have hre' : reSearch (content.take s ++ format_cpp_array pixels
        ++ content.drop e)
      = some (s, s + (format_cpp_array pixels).length) := by
    rw [List.append_assoc]
    exact hre
  refine ⟨update_main_cpp_eq content (format_cpp_array pixels) s e h, ?_⟩
  rw [update_main_cpp_eq _ (format_cpp_array pixels) s
    (s + (format_cpp_array pixels).length) hre']
  rw [replaced_take content (format_cpp_array pixels) s e h,
    replaced_drop content (format_cpp_array pixels) s e h]

set_option maxRecDepth 40000 in
theorem C3_update_idempotent_witness :
    (List.replicate 4096 128).length = 4096
    ∧ reSearch (lit1 ++ lit2 ++ pyStr "1\x7d;")
        = some (0, (lit1 ++ lit2 ++ pyStr "1\x7d;").length)
    ∧ update_main_cpp (lit1 ++ lit2 ++ pyStr "1\x7d;")
        (format_cpp_array (List.replicate 4096 128))
      = some ((lit1 ++ lit2 ++ pyStr "1\x7d;").take 0
          ++ format_cpp_array (List.replicate 4096 128)
          ++ (lit1 ++ lit2 ++ pyStr "1\x7d;").drop
            (lit1 ++ lit2 ++ pyStr "1\x7d;").length) :=
  ⟨by rw [List.length_replicate], by decide,
    (C3_update_idempotent (lit1 ++ lit2 ++ pyStr "1\x7d;")
      (List.replicate 4096 128) 0 (lit1 ++ lit2 ++ pyStr "1\x7d;").length
      (by rw [List.length_replicate]) (by decide)).1⟩

end BlueNoise
